import Mathlib

/-!
Verification of the `preftree` crate (`src/lib.rs`): a prefix tree
(`PrefixTree<K, V>`) holding an optional value and a map from key elements to
child subtrees, with insertion, exact-match and shortest-prefix lookup
(immutable and mutable), and exact-match and shortest-prefix removal with
upward pruning of empty nodes.

The `HashMap<K, PrefixTree<K, V>>` of children is embedded as an association
list `List (K × PrefixTree K V)`; `getA`, `insertA` and `eraseA` model
`HashMap::get`, in-place update through `get_mut`/`entry`, and
`HashMap::remove`.  Key sequences (`impl IntoIterator<Item = K>`) are embedded
as `List K`; operations that consume a caller-supplied cursor also return the
unconsumed remainder of the list.  Mutation through `&mut self` is embedded by
returning the updated tree alongside the Rust function's return value.
-/

set_option linter.unusedSectionVars false

namespace Preftree

variable {K V : Type}

/-- `getA k l` is `HashMap::get`: the value of the first entry with key `k`. -/
def getA [DecidableEq K] (k : K) : List (K × α) → Option α
  | [] => none
  | (k2, a) :: tl => if k = k2 then some a else getA k tl

/-- `insertA k a l` stores `a` at key `k`: it replaces the first entry with key
`k` in place, or appends a new entry when the key is absent.  It models writing
through `HashMap::get_mut` / `HashMap::entry`. -/
def insertA [DecidableEq K] (k : K) (a : α) : List (K × α) → List (K × α)
  | [] => [(k, a)]
  | (k2, b) :: tl => if k = k2 then (k, a) :: tl else (k2, b) :: insertA k a tl

/-- `eraseA k l` is `HashMap::remove`: it deletes the first entry with key `k`. -/
def eraseA [DecidableEq K] (k : K) : List (K × α) → List (K × α)
  | [] => []
  | (k2, b) :: tl => if k = k2 then tl else (k2, b) :: eraseA k tl

/-- `PrefixTree<K, V>`: a node with `value: Option<V>` and
`subtrees: HashMap<K, PrefixTree<K, V>>`. -/
inductive PrefixTree (K V : Type) where
  | node : Option V → List (K × PrefixTree K V) → PrefixTree K V

/-- The `value` field of a node. -/
def value : PrefixTree K V → Option V
  | .node v _ => v

/-- The `subtrees` field of a node. -/
def subtrees : PrefixTree K V → List (K × PrefixTree K V)
  | .node _ cs => cs

theorem node_eta (t : PrefixTree K V) : PrefixTree.node (value t) (subtrees t) = t := by
  cases t; rfl

@[simp] theorem value_node (v : Option V) (cs : List (K × PrefixTree K V)) :
    value (.node v cs) = v := rfl

@[simp] theorem subtrees_node (v : Option V) (cs : List (K × PrefixTree K V)) :
    subtrees (.node v cs) = cs := rfl

/-- `PrefixTree::new` / `Default::default`: no value, no subtrees. -/
def new : PrefixTree K V := .node none []

variable [DecidableEq K]

/-- `PrefixTree::insert`: walk the sequence, fetching or lazily creating the
child for each element (`subtrees.entry(item).or_insert_with(PrefixTree::new)`),
then `value.replace(value)` at the final node.  Returns the previous value at
the key and the updated tree. -/
def insert : PrefixTree K V → List K → V → Option V × PrefixTree K V
  | t, [], v => (value t, .node (some v) (subtrees t))
  | t, k :: rest, v =>
    let sub := match getA k (subtrees t) with
      | some sub => sub
      | none => new
    let p := insert sub rest v
    (p.1, .node (value t) (insertA k p.2 (subtrees t)))

/-- `PrefixTree::get_exact_match`: walk the whole sequence through `subtrees`,
returning `None` as soon as a child is missing, else the final node's value. -/
def get_exact_match : PrefixTree K V → List K → Option V
  | t, [] => value t
  | t, k :: rest =>
    match getA k (subtrees t) with
    | none => none
    | some sub => get_exact_match sub rest

/-- `PrefixTree::get_exact_match_mut`: same walk as `get_exact_match` but
through `get_mut`; the second component is the tree as left behind by the
borrow (no write happens through it inside the function). -/
def get_exact_match_mut : PrefixTree K V → List K → Option V × PrefixTree K V
  | t, [] => (value t, t)
  | t, k :: rest =>
    match getA k (subtrees t) with
    | none => (none, t)
    | some sub =>
      let p := get_exact_match_mut sub rest
      (p.1, .node (value t) (insertA k p.2 (subtrees t)))

/-- `PrefixTree::get_by_shortest_prefix`: before consuming the next element,
return the current node's value if it is `Some`; otherwise consume one element
(`sequence.next()`) and descend.  The second component is the unconsumed
remainder of the cursor. -/
def get_by_shortest_prefix : PrefixTree K V → List K → Option V × List K
  | t, s =>
    match value t, s with
    | some v, s2 => (some v, s2)
    | none, [] => (none, [])
    | none, k :: rest =>
      match getA k (subtrees t) with
      | none => (none, rest)
      | some sub => get_by_shortest_prefix sub rest

/-- `PrefixTree::get_by_shortest_prefix_mut`: the same walk through `get_mut`;
returns the Rust return value, the tree left behind by the borrow, and the
unconsumed remainder of the cursor. -/
def get_by_shortest_prefix_mut : PrefixTree K V → List K → Option V × PrefixTree K V × List K
  | t, s =>
    match value t, s with
    | some v, s2 => (some v, t, s2)
    | none, [] => (none, t, [])
    | none, k :: rest =>
      match getA k (subtrees t) with
      | none => (none, t, rest)
      | some sub =>
        let p := get_by_shortest_prefix_mut sub rest
        (p.1, .node (value t) (insertA k p.2.1 (subtrees t)), p.2.2)

/-- The descent-and-prune core of `PrefixTree::remove_exact_match`.  `none`
means the descent found no child for some element: the Rust code then returns
`None` before mutating anything.  Otherwise the target node's value is taken
(`root.value.take()`), and on the way back up a child that now has no value
and no subtrees is detached (`(*root).subtrees.remove(item)`); the prune loop
stops at the first ancestor that keeps a value or other children. -/
def removeExactAux : PrefixTree K V → List K → Option (Option V × PrefixTree K V)
  | t, [] => some (value t, .node none (subtrees t))
  | t, k :: rest =>
    match getA k (subtrees t) with
    | none => none
    | some sub =>
      match removeExactAux sub rest with
      | none => none
      | some (res, sub2) =>
        if (value sub2).isNone && (subtrees sub2).isEmpty then
          some (res, .node (value t) (eraseA k (subtrees t)))
        else
          some (res, .node (value t) (insertA k sub2 (subtrees t)))

/-- `PrefixTree::remove_exact_match`: the taken value and the updated tree; on
descent failure the tree is returned unchanged. -/
def remove_exact_match (t : PrefixTree K V) (s : List K) : Option V × PrefixTree K V :=
  match removeExactAux t s with
  | none => (none, t)
  | some p => p

/-- `PrefixTree::remove_by_shortest_prefix`: descend with the stop-at-first-
value rule of `get_by_shortest_prefix`, recording the path; on success take
the found value and prune exactly as `remove_exact_match` does.  Failure
(value still `None` when the cursor or the children run out) mutates nothing.
Returns the taken value, the updated tree, and the unconsumed remainder of
the cursor. -/
def remove_by_shortest_prefix : PrefixTree K V → List K → Option V × PrefixTree K V × List K
  | t, s =>
    match value t, s with
    | some v, s2 => (some v, .node none (subtrees t), s2)
    | none, [] => (none, t, [])
    | none, k :: rest =>
      match getA k (subtrees t) with
      | none => (none, t, rest)
      | some sub =>
        match remove_by_shortest_prefix sub rest with
        | (none, _, rem) => (none, t, rem)
        | (some v, sub2, rem) =>
          if (value sub2).isNone && (subtrees sub2).isEmpty then
            (some v, .node (value t) (eraseA k (subtrees t)), rem)
          else
            (some v, .node (value t) (insertA k sub2 (subtrees t)), rem)

mutual

/-- Invariant I1 ("no dead leaves") below a node: every child subtree, at any
depth, has a value or a nonempty child map.  The node itself (the root of the
tree it heads) is exempt, as the spec exempts the root. -/
def pruned : PrefixTree K V → Bool
  | .node _ cs => prunedChildren cs

/-- `pruned` for each subtree of a child list, together with each child not
being a dead leaf. -/
def prunedChildren : List (K × PrefixTree K V) → Bool
  | [] => true
  | (_, c) :: tl =>
    ((value c).isSome || !(subtrees c).isEmpty) && pruned c && prunedChildren tl

end

/-- `hasKey k l`: some entry of `l` has key `k`. -/
def hasKey [DecidableEq K] (k : K) (l : List (K × α)) : Bool :=
  (getA k l).isSome

/-- The keys of an association list are pairwise distinct; true of every list
that embeds an actual `HashMap`. -/
def keysNodup [DecidableEq K] : List (K × α) → Bool
  | [] => true
  | (k, _) :: tl => !(hasKey k tl) && keysNodup tl

mutual

/-- A tree is well formed when every child map in it has pairwise distinct
keys: the trees that embed actual `HashMap`-based `PrefixTree` values. -/
def wfTree [DecidableEq K] : PrefixTree K V → Bool
  | .node _ cs => keysNodup cs && wfChildren cs

/-- `wfTree` for each subtree of a child list. -/
def wfChildren [DecidableEq K] : List (K × PrefixTree K V) → Bool
  | [] => true
  | (_, c) :: tl => wfTree c && wfChildren tl

end

mutual

/-- The number of nodes of a tree (the root included). -/
def size : PrefixTree K V → Nat
  | .node _ cs => 1 + sizeChildren cs

/-- The total number of nodes in a child list. -/
def sizeChildren : List (K × PrefixTree K V) → Nat
  | [] => 0
  | (_, c) :: tl => size c + sizeChildren tl

end

/-- `hasNode t s`: walking `s` from `t` reaches a node (the node may or may
not hold a value). -/
def hasNode [DecidableEq K] : PrefixTree K V → List K → Bool
  | _, [] => true
  | t, k :: rest =>
    match getA k (subtrees t) with
    | none => false
    | some sub => hasNode sub rest

/-! ### Association-list lemmas -/

theorem getA_insertA_self (k : K) (a : α) (l : List (K × α)) :
    getA k (insertA k a l) = some a := by
  induction l with
  | nil => simp [insertA, getA]
  | cons hd tl ih =>
    obtain ⟨k2, b⟩ := hd
    by_cases h : k = k2 <;> simp [insertA, getA, h, ih]

theorem getA_insertA_ne {k k2 : K} (h : k2 ≠ k) (a : α)
    (l : List (K × α)) : getA k2 (insertA k a l) = getA k2 l := by
  induction l with
  | nil => simp [insertA, getA, h]
  | cons hd tl ih =>
    obtain ⟨k3, b⟩ := hd
    by_cases h2 : k = k3
    · subst h2; simp [insertA, getA, h, ih]
    · by_cases h3 : k2 = k3 <;> simp [insertA, getA, h2, h3, ih]

theorem insertA_getA_self {k : K} {a : α} {l : List (K × α)}
    (h : getA k l = some a) : insertA k a l = l := by
  induction l with
  | nil => simp [getA] at h
  | cons hd tl ih =>
    obtain ⟨k2, b⟩ := hd
    by_cases h2 : k = k2
    · subst h2
      simp [getA] at h
      simp [insertA, h]
    · simp [getA, h2] at h
      simp [insertA, h2, ih h]

theorem getA_eraseA_ne {k k2 : K} (h : k2 ≠ k)
    (l : List (K × α)) : getA k2 (eraseA k l) = getA k2 l := by
  induction l with
  | nil => simp [eraseA]
  | cons hd tl ih =>
    obtain ⟨k3, b⟩ := hd
    by_cases h2 : k = k3
    · subst h2; simp [eraseA, getA, fun hh => h (hh : k2 = k)]
    · by_cases h3 : k2 = k3 <;> simp [eraseA, getA, h2, h3, ih]

theorem getA_eraseA_self {k : K} {l : List (K × α)}
    (h : keysNodup l = true) : getA k (eraseA k l) = none := by
  induction l with
  | nil => simp [eraseA, getA]
  | cons hd tl ih =>
    obtain ⟨k2, b⟩ := hd
    simp [keysNodup, hasKey] at h
    by_cases h2 : k = k2
    · subst h2
      simpa [eraseA, Option.isNone_iff_eq_none] using h.1
    · simp [eraseA, getA, h2, ih h.2]

theorem hasKey_insertA {k k2 : K} (a : α) (l : List (K × α)) :
    hasKey k2 (insertA k a l) = (k2 = k || hasKey k2 l) := by
  by_cases h : k2 = k
  · subst h; simp [hasKey, getA_insertA_self]
  · simp [hasKey, getA_insertA_ne h, h]

theorem keysNodup_insertA {l : List (K × α)} (k : K) (a : α)
    (h : keysNodup l = true) : keysNodup (insertA k a l) = true := by
  induction l with
  | nil => simp [insertA, keysNodup, hasKey, getA]
  | cons hd tl ih =>
    obtain ⟨k2, b⟩ := hd
    simp [keysNodup] at h
    by_cases h2 : k = k2
    · subst h2; simp [insertA, keysNodup, h.1, h.2]
    · have : ¬(k2 = k) := fun hh => h2 hh.symm
      simp [insertA, h2, keysNodup, hasKey_insertA, this, h.1, ih h.2]

theorem keysNodup_eraseA {l : List (K × α)} (k : K)
    (h : keysNodup l = true) : keysNodup (eraseA k l) = true := by
  induction l with
  | nil => simp [eraseA, keysNodup]
  | cons hd tl ih =>
    obtain ⟨k2, b⟩ := hd
    simp [keysNodup] at h
    by_cases h2 : k = k2
    · subst h2; simp [eraseA, h.2]
    · have hk : hasKey k2 (eraseA k tl) = false := by
        have := h.1
        by_cases h3 : k2 = k
        · exact absurd h3.symm h2
        · simpa [hasKey, getA_eraseA_ne h3] using this
      simp [eraseA, h2, keysNodup, hk, ih h.2]

theorem sizeChildren_insertA {k : K} {c : PrefixTree K V}
    {l : List (K × PrefixTree K V)} (h : getA k l = some c)
    (c2 : PrefixTree K V) :
    sizeChildren (insertA k c2 l) + size c = sizeChildren l + size c2 := by
  induction l with
  | nil => simp [getA] at h
  | cons hd tl ih =>
    obtain ⟨k2, b⟩ := hd
    by_cases h2 : k = k2
    · subst h2
      simp [getA] at h
      subst h
      simp [insertA, sizeChildren]
      omega
    · simp [getA, h2] at h
      simp [insertA, h2, sizeChildren]
      have := ih h
      omega

/-! ### Lemmas about the invariant predicates -/

@[simp] theorem pruned_node (v : Option V) (cs : List (K × PrefixTree K V)) :
    pruned (.node v cs) = prunedChildren cs := by
  rw [pruned]

@[simp] theorem prunedChildren_nil : prunedChildren ([] : List (K × PrefixTree K V)) = true := by
  rw [prunedChildren]

theorem prunedChildren_cons (k : K) (c : PrefixTree K V) (tl : List (K × PrefixTree K V)) :
    prunedChildren ((k, c) :: tl) =
      (((value c).isSome || !(subtrees c).isEmpty) && pruned c && prunedChildren tl) := by
  rw [prunedChildren]

theorem pruned_eq (t : PrefixTree K V) : pruned t = prunedChildren (subtrees t) := by
  cases t; rw [pruned]; rfl

theorem prunedChildren_getA {cs : List (K × PrefixTree K V)} {k : K} {c : PrefixTree K V}
    (hp : prunedChildren cs = true) (hg : getA k cs = some c) :
    (((value c).isSome || !(subtrees c).isEmpty) && pruned c) = true := by
  induction cs with
  | nil => simp [getA] at hg
  | cons hd tl ih =>
    obtain ⟨k2, b⟩ := hd
    rw [prunedChildren_cons] at hp
    simp at hp
    by_cases h2 : k = k2
    · simp [getA, h2] at hg
      subst hg
      simp [hp.1.1, hp.1.2]
    · simp [getA, h2] at hg
      exact ih hp.2 hg

theorem prunedChildren_insertA {cs : List (K × PrefixTree K V)} {c : PrefixTree K V} (k : K)
    (hp : prunedChildren cs = true)
    (hc : (((value c).isSome || !(subtrees c).isEmpty) && pruned c) = true) :
    prunedChildren (insertA k c cs) = true := by
  induction cs with
  | nil =>
    simp at hc
    simp [insertA, prunedChildren_cons, hc.1, hc.2]
  | cons hd tl ih =>
    obtain ⟨k2, b⟩ := hd
    rw [prunedChildren_cons] at hp
    simp at hp hc
    by_cases h2 : k = k2
    · simp [insertA, h2, prunedChildren_cons, hc.1, hc.2, hp.2]
    · simp [insertA, h2, prunedChildren_cons, hp.1.1, hp.1.2, ih hp.2]

theorem prunedChildren_eraseA {cs : List (K × PrefixTree K V)} (k : K)
    (hp : prunedChildren cs = true) : prunedChildren (eraseA k cs) = true := by
  induction cs with
  | nil => simp [eraseA]
  | cons hd tl ih =>
    obtain ⟨k2, b⟩ := hd
    rw [prunedChildren_cons] at hp
    simp at hp
    by_cases h2 : k = k2
    · simp [eraseA, h2, hp.2]
    · simp [eraseA, h2, prunedChildren_cons, hp.1.1, hp.1.2, ih hp.2]

@[simp] theorem wfTree_node (v : Option V) (cs : List (K × PrefixTree K V)) :
    wfTree (.node v cs) = (keysNodup cs && wfChildren cs) := by
  rw [wfTree]

@[simp] theorem wfChildren_nil : wfChildren ([] : List (K × PrefixTree K V)) = true := by
  rw [wfChildren]

theorem wfChildren_cons (k : K) (c : PrefixTree K V) (tl : List (K × PrefixTree K V)) :
    wfChildren ((k, c) :: tl) = (wfTree c && wfChildren tl) := by
  rw [wfChildren]

theorem wfTree_eq (t : PrefixTree K V) :
    wfTree t = (keysNodup (subtrees t) && wfChildren (subtrees t)) := by
  cases t; rw [wfTree]; rfl

theorem wfChildren_getA {cs : List (K × PrefixTree K V)} {k : K} {c : PrefixTree K V}
    (hw : wfChildren cs = true) (hg : getA k cs = some c) : wfTree c = true := by
  induction cs with
  | nil => simp [getA] at hg
  | cons hd tl ih =>
    obtain ⟨k2, b⟩ := hd
    rw [wfChildren_cons] at hw
    simp at hw
    by_cases h2 : k = k2
    · simp [getA, h2] at hg
      subst hg
      exact hw.1
    · simp [getA, h2] at hg
      exact ih hw.2 hg

theorem wfChildren_insertA {cs : List (K × PrefixTree K V)} {c : PrefixTree K V} (k : K)
    (hw : wfChildren cs = true) (hc : wfTree c = true) :
    wfChildren (insertA k c cs) = true := by
  induction cs with
  | nil => simp [insertA, wfChildren_cons, hc]
  | cons hd tl ih =>
    obtain ⟨k2, b⟩ := hd
    rw [wfChildren_cons] at hw
    simp at hw
    by_cases h2 : k = k2
    · simp [insertA, h2, wfChildren_cons, hc, hw.2]
    · simp [insertA, h2, wfChildren_cons, hw.1, ih hw.2]

theorem wfChildren_eraseA {cs : List (K × PrefixTree K V)} (k : K)
    (hw : wfChildren cs = true) : wfChildren (eraseA k cs) = true := by
  induction cs with
  | nil => simp [eraseA]
  | cons hd tl ih =>
    obtain ⟨k2, b⟩ := hd
    rw [wfChildren_cons] at hw
    simp at hw
    by_cases h2 : k = k2
    · simp [eraseA, h2, hw.2]
    · simp [eraseA, h2, wfChildren_cons, hw.1, ih hw.2]

@[simp] theorem size_node (v : Option V) (cs : List (K × PrefixTree K V)) :
    size (.node v cs) = 1 + sizeChildren cs := by
  rw [size]

theorem size_eq (t : PrefixTree K V) : size t = 1 + sizeChildren (subtrees t) := by
  cases t; rw [size]; rfl

/-! ### Insertion and exact lookup -/

theorem get_exact_match_new (s : List K) :
    get_exact_match (new : PrefixTree K V) s = none := by
  cases s <;> simp [get_exact_match, new, getA]

/-- Round trip: looking up the freshly inserted key finds the new value. -/
theorem get_exact_match_insert (t : PrefixTree K V) (s : List K) (v : V) :
    get_exact_match (insert t s v).2 s = some v := by
  induction s generalizing t with
  | nil => simp [insert, get_exact_match]
  | cons k rest ih =>
    simp only [insert, get_exact_match]
    rw [subtrees_node, getA_insertA_self]
    exact ih _

/-- The value `insert` returns is the value the exact lookup saw before. -/
theorem insert_fst (t : PrefixTree K V) (s : List K) (v : V) :
    (insert t s v).1 = get_exact_match t s := by
  induction s generalizing t with
  | nil => simp [insert, get_exact_match]
  | cons k rest ih =>
    simp only [insert, get_exact_match]
    cases hg : getA k (subtrees t) with
    | none => simp [ih, get_exact_match_new]
    | some sub => simp [ih]

/-- After an insertion the node for the inserted key exists. -/
theorem hasNode_insert (t : PrefixTree K V) (s : List K) (v : V) :
    hasNode (insert t s v).2 s = true := by
  induction s generalizing t with
  | nil => simp [hasNode]
  | cons k rest ih =>
    simp only [insert, hasNode]
    rw [subtrees_node, getA_insertA_self]
    exact ih _

/-- Inserting at a key whose node already exists creates no node. -/
theorem size_insert_hasNode {t : PrefixTree K V} {s : List K}
    (h : hasNode t s = true) (v : V) : size (insert t s v).2 = size t := by
  induction s generalizing t with
  | nil => simp [insert, size_eq]
  | cons k rest ih =>
    rw [hasNode] at h
    cases hg : getA k (subtrees t) with
    | none => simp [hg] at h
    | some sub =>
      simp only [hg] at h
      simp only [insert, hg]
      rw [size_eq t, size_node]
      have hs := sizeChildren_insertA (V := V) hg (insert sub rest v).2
      have hsub := ih h
      omega

/-- `insert` keeps child maps duplicate-free. -/
theorem wfTree_insert {t : PrefixTree K V} (h : wfTree t = true) (s : List K) (v : V) :
    wfTree (insert t s v).2 = true := by
  induction s generalizing t with
  | nil =>
    rw [wfTree_eq] at h
    simp only [insert]
    rw [wfTree_node]
    simpa using h
  | cons k rest ih =>
    rw [wfTree_eq] at h
    simp at h
    simp only [insert]
    rw [wfTree_node]
    cases hg : getA k (subtrees t) with
    | none =>
      have hwnew : wfTree (new : PrefixTree K V) = true := by simp [new, keysNodup]
      simp [hg, keysNodup_insertA _ _ h.1,
        wfChildren_insertA _ h.2 (ih hwnew)]
    | some sub =>
      have hwsub := wfChildren_getA h.2 hg
      simp [hg, keysNodup_insertA _ _ h.1,
        wfChildren_insertA _ h.2 (ih hwsub)]

/-! ### Exact-match removal -/

/-- A dead node: no value and no children (the prune condition of the removal
loops). -/
theorem dead_iff (t : PrefixTree K V) :
    ((value t).isNone && (subtrees t).isEmpty) = true ↔
      value t = none ∧ subtrees t = [] := by
  simp [Option.isNone_iff_eq_none, List.isEmpty_iff]

theorem removeExactAux_none_get {t : PrefixTree K V} {s : List K}
    (h : removeExactAux t s = none) : get_exact_match t s = none := by
  induction s generalizing t with
  | nil => simp [removeExactAux] at h
  | cons k rest ih =>
    simp only [removeExactAux] at h
    simp only [get_exact_match]
    cases hg : getA k (subtrees t) with
    | none => rfl
    | some sub =>
      simp only [hg] at h
      cases ha : removeExactAux sub rest with
      | none => exact ih ha
      | some p =>
        obtain ⟨res, sub2⟩ := p
        simp [ha] at h
        cases hc : ((value sub2).isNone && (subtrees sub2).isEmpty) <;> simp [hc] at h

theorem removeExactAux_fst {t : PrefixTree K V} {s : List K} {p : Option V × PrefixTree K V}
    (h : removeExactAux t s = some p) : p.1 = get_exact_match t s := by
  induction s generalizing t p with
  | nil =>
    simp [removeExactAux] at h
    simp [← h, get_exact_match]
  | cons k rest ih =>
    simp only [removeExactAux] at h
    simp only [get_exact_match]
    cases hg : getA k (subtrees t) with
    | none => simp [hg] at h
    | some sub =>
      simp only [hg] at h
      cases ha : removeExactAux sub rest with
      | none => simp [ha] at h
      | some q =>
        obtain ⟨res, sub2⟩ := q
        have hres := ih ha
        simp only [ha] at h
        cases hc : ((value sub2).isNone && (subtrees sub2).isEmpty) <;>
          simp [hc] at h <;> simp [← h, hres]

/-- `remove_exact_match` returns exactly the value the exact lookup saw, whether
or not any pruning happened. -/
theorem remove_exact_match_fst (t : PrefixTree K V) (s : List K) :
    (remove_exact_match t s).1 = get_exact_match t s := by
  rw [remove_exact_match]
  cases h : removeExactAux t s with
  | none => simp [removeExactAux_none_get h]
  | some p => simpa using removeExactAux_fst h

/-- After a successful descent the removed key no longer maps to a value. -/
theorem removeExactAux_get_none {t : PrefixTree K V} {s : List K}
    {res : Option V} {t2 : PrefixTree K V} (hw : wfTree t = true)
    (h : removeExactAux t s = some (res, t2)) : get_exact_match t2 s = none := by
  induction s generalizing t res t2 with
  | nil =>
    simp [removeExactAux] at h
    simp [← h.2, get_exact_match]
  | cons k rest ih =>
    rw [wfTree_eq] at hw
    simp at hw
    simp only [removeExactAux] at h
    cases hg : getA k (subtrees t) with
    | none => simp [hg] at h
    | some sub =>
      simp only [hg] at h
      cases ha : removeExactAux sub rest with
      | none => simp [ha] at h
      | some q =>
        obtain ⟨res2, sub2⟩ := q
        have hwsub := wfChildren_getA hw.2 hg
        have hget : get_exact_match sub2 rest = none := ih hwsub ha
        simp only [ha] at h
        cases hc : ((value sub2).isNone && (subtrees sub2).isEmpty) with
        | true =>
          simp [hc] at h
          rw [get_exact_match.eq_def]
          simp [← h.2, getA_eraseA_self hw.1]
        | false =>
          simp [hc] at h
          rw [get_exact_match.eq_def]
          simp [← h.2, getA_insertA_self, hget]

/-- On a pruned tree, a removal that found no value changes nothing: the
descent either fails outright or reaches a node whose emptiness never starts
a prune (a valueless node on a pruned tree has children). -/
theorem removeExactAux_id {t : PrefixTree K V} {s : List K} {t2 : PrefixTree K V}
    (hp : pruned t = true) (h : removeExactAux t s = some (none, t2)) : t2 = t := by
  induction s generalizing t t2 with
  | nil =>
    simp [removeExactAux] at h
    rw [← h.2, ← h.1, node_eta]
  | cons k rest ih =>
    rw [pruned_eq] at hp
    simp only [removeExactAux] at h
    cases hg : getA k (subtrees t) with
    | none => simp [hg] at h
    | some sub =>
      simp only [hg] at h
      cases ha : removeExactAux sub rest with
      | none => simp [ha] at h
      | some q =>
        obtain ⟨res2, sub2⟩ := q
        have hsub := prunedChildren_getA hp hg
        simp at hsub
        simp only [ha] at h
        cases hc : ((value sub2).isNone && (subtrees sub2).isEmpty) with
        | true =>
          simp [hc] at h
          have hs2 : sub2 = sub := ih hsub.2 (by rw [ha, h.1])
          rw [dead_iff] at hc
          rw [hs2] at hc
          rcases hsub.1 with hv | hne
          · rw [hc.1] at hv; simp at hv
          · exact absurd hc.2 (by simpa [List.isEmpty_iff] using hne)
        | false =>
          simp [hc] at h
          have hs2 : sub2 = sub := ih hsub.2 (by rw [ha, h.1])
          rw [← h.2, hs2, insertA_getA_self hg, node_eta]

/-- Removal keeps the no-dead-leaves invariant. -/
theorem pruned_removeExactAux {t : PrefixTree K V} {s : List K}
    {res : Option V} {t2 : PrefixTree K V} (hp : pruned t = true)
    (h : removeExactAux t s = some (res, t2)) : pruned t2 = true := by
  induction s generalizing t res t2 with
  | nil =>
    simp [removeExactAux] at h
    rw [← h.2, pruned_node]
    rw [pruned_eq] at hp
    exact hp
  | cons k rest ih =>
    rw [pruned_eq] at hp
    simp only [removeExactAux] at h
    cases hg : getA k (subtrees t) with
    | none => simp [hg] at h
    | some sub =>
      simp only [hg] at h
      cases ha : removeExactAux sub rest with
      | none => simp [ha] at h
      | some q =>
        obtain ⟨res2, sub2⟩ := q
        have hsub := prunedChildren_getA hp hg
        simp at hsub
        have hp2 : pruned sub2 = true := ih hsub.2 ha
        simp only [ha] at h
        cases hc : ((value sub2).isNone && (subtrees sub2).isEmpty) with
        | true =>
          simp [hc] at h
          rw [← h.2, pruned_node]
          exact prunedChildren_eraseA _ hp
        | false =>
          simp [hc] at h
          rw [← h.2, pruned_node]
          refine prunedChildren_insertA _ hp ?_
          simp only [Bool.and_eq_true]
          refine ⟨?_, hp2⟩
          have hc2 : ¬(value sub2 = none ∧ subtrees sub2 = []) := by
            rw [← dead_iff sub2]
            simp [hc]
          by_cases hv : value sub2 = none
          · have hne : subtrees sub2 ≠ [] := fun hh => hc2 ⟨hv, hh⟩
            simp [List.isEmpty_iff, hne]
          · simp [Option.isSome_iff_ne_none, hv]

theorem pruned_remove_exact_match {t : PrefixTree K V} (hp : pruned t = true)
    (s : List K) : pruned (remove_exact_match t s).2 = true := by
  rw [remove_exact_match]
  cases h : removeExactAux t s with
  | none => simpa
  | some p =>
    obtain ⟨res, t2⟩ := p
    simpa using pruned_removeExactAux hp h

/-! ### Insertion keeps the invariant -/

theorem insertA_ne_nil (k : K) (a : α) (l : List (K × α)) : insertA k a l ≠ [] := by
  cases l with
  | nil => simp [insertA]
  | cons hd tl =>
    obtain ⟨k2, b⟩ := hd
    by_cases h : k = k2 <;> simp [insertA, h]

@[simp] theorem pruned_new : pruned (new : PrefixTree K V) = true := by
  rw [new, pruned_node, prunedChildren]

/-- The tree an insertion returns is never a dead node: it carries the new
value (empty sequence) or the child just written (nonempty sequence). -/
theorem insert_notDead (t : PrefixTree K V) (s : List K) (v : V) :
    (((value (insert t s v).2).isSome || !(subtrees (insert t s v).2).isEmpty)) = true := by
  cases s with
  | nil => simp [insert]
  | cons k rest =>
    simp [insert, List.isEmpty_iff, insertA_ne_nil]

/-- Insertion keeps the no-dead-leaves invariant: every node it creates either
receives the value or a child. -/
theorem pruned_insert {t : PrefixTree K V} (hp : pruned t = true) (s : List K) (v : V) :
    pruned (insert t s v).2 = true := by
  induction s generalizing t with
  | nil =>
    simp only [insert]
    rw [pruned_node, ← pruned_eq]
    exact hp
  | cons k rest ih =>
    rw [pruned_eq] at hp
    simp only [insert]
    rw [pruned_node]
    cases hg : getA k (subtrees t) with
    | none =>
      refine prunedChildren_insertA _ hp ?_
      simp [ih pruned_new, insert_notDead]
    | some sub =>
      have hsub := prunedChildren_getA hp hg
      simp at hsub
      refine prunedChildren_insertA _ hp ?_
      simp [ih hsub.2, insert_notDead]

/-! ### Shortest-prefix lookup and removal -/

/-- A value at the current node fires before any element is consumed. -/
theorem get_by_shortest_prefix_value_some {t : PrefixTree K V} {v : V}
    (h : value t = some v) (s : List K) :
    get_by_shortest_prefix t s = (some v, s) := by
  rw [ get_by_shortest_prefix]
  cases s <;> simp [h]

/-- A value at the root makes the shortest-prefix removal fire at once: it
returns the root's value, clears it, prunes nothing, consumes nothing. -/
theorem remove_by_shortest_prefix_value_some {t : PrefixTree K V} {v : V}
    (h : value t = some v) (s : List K) :
    remove_by_shortest_prefix t s = (some v, .node none (subtrees t), s) := by
  rw [ remove_by_shortest_prefix]
  cases s <;> simp [h]

/-- Unfolding: a valueless node with an empty cursor fails. -/
theorem get_by_shortest_prefix_none_nil {t : PrefixTree K V} (hv : value t = none) :
    get_by_shortest_prefix t [] = (none, []) := by
  rw [ get_by_shortest_prefix.eq_def]
  simp [hv]

/-- Unfolding: a valueless node with no child for the next element consumes it
and fails. -/
theorem get_by_shortest_prefix_miss {t : PrefixTree K V} {k : K} (rest : List K)
    (hv : value t = none) (hg : getA k (subtrees t) = none) :
    get_by_shortest_prefix t (k :: rest) = (none, rest) := by
  rw [ get_by_shortest_prefix.eq_def]
  simp [hv, hg]

/-- Unfolding: a valueless node consumes the next element and descends. -/
theorem get_by_shortest_prefix_step {t sub : PrefixTree K V} {k : K} (rest : List K)
    (hv : value t = none) (hg : getA k (subtrees t) = some sub) :
    get_by_shortest_prefix t (k :: rest) = get_by_shortest_prefix sub rest := by
  rw [ get_by_shortest_prefix.eq_def]
  simp [hv, hg]

/-- Unfolding: shortest-prefix removal fails on a valueless node with an empty
cursor. -/
theorem remove_by_shortest_prefix_none_nil {t : PrefixTree K V} (hv : value t = none) :
    remove_by_shortest_prefix t [] = (none, t, []) := by
  rw [ remove_by_shortest_prefix.eq_def]
  simp [hv]

/-- Unfolding: shortest-prefix removal fails on a valueless node with no child
for the next element, consuming that element. -/
theorem remove_by_shortest_prefix_miss {t : PrefixTree K V} {k : K} (rest : List K)
    (hv : value t = none) (hg : getA k (subtrees t) = none) :
    remove_by_shortest_prefix t (k :: rest) = (none, t, rest) := by
  rw [ remove_by_shortest_prefix.eq_def]
  simp [hv, hg]

/-- Unfolding: a failure below leaves this node untouched. -/
theorem remove_by_shortest_prefix_step_none {t sub u : PrefixTree K V} {k : K}
    {rest rem : List K} (hv : value t = none) (hg : getA k (subtrees t) = some sub)
    (hrec : remove_by_shortest_prefix sub rest = (none, u, rem)) :
    remove_by_shortest_prefix t (k :: rest) = (none, t, rem) := by
  rw [ remove_by_shortest_prefix.eq_def]
  simp [hv, hg, hrec]

/-- Unfolding: a success below detaches the child if it became dead, else
stores it back. -/
theorem remove_by_shortest_prefix_step_some {t sub snd : PrefixTree K V} {k : K}
    {rest rem : List K} {v : V} (hv : value t = none)
    (hg : getA k (subtrees t) = some sub)
    (hrec : remove_by_shortest_prefix sub rest = (some v, snd, rem)) :
    remove_by_shortest_prefix t (k :: rest) =
      if (value snd).isNone && (subtrees snd).isEmpty then
        (some v, .node (value t) (eraseA k (subtrees t)), rem)
      else
        (some v, .node (value t) (insertA k snd (subtrees t)), rem) := by
  rw [ remove_by_shortest_prefix.eq_def]
  simp [hv, hg, hrec]

/-- A failed shortest-prefix removal returns the tree unchanged. -/
theorem remove_by_shortest_prefix_none_id (t : PrefixTree K V) (s : List K)
    (h : ( remove_by_shortest_prefix t s).1 = none) :
    ( remove_by_shortest_prefix t s).2.1 = t := by
  cases hv : value t with
  | some v => rw [remove_by_shortest_prefix_value_some hv] at h; simp at h
  | none =>
    cases s with
    | nil => rw [remove_by_shortest_prefix_none_nil hv]
    | cons k rest =>
      cases hg : getA k (subtrees t) with
      | none => rw [remove_by_shortest_prefix_miss rest hv hg]
      | some sub =>
        rcases hr : remove_by_shortest_prefix sub rest with ⟨fst, snd, rem⟩
        cases fst with
        | none => rw [remove_by_shortest_prefix_step_none hv hg hr]
        | some v =>
          rw [remove_by_shortest_prefix_step_some hv hg hr] at h
          cases hc : ((value snd).isNone && (subtrees snd).isEmpty) <;>
            simp [hc] at h

/-- Shortest-prefix removal keeps the no-dead-leaves invariant. -/
theorem pruned_remove_by_shortest_prefix {t : PrefixTree K V} (hp : pruned t = true)
    (s : List K) : pruned ( remove_by_shortest_prefix t s).2.1 = true := by
  induction s generalizing t with
  | nil =>
    cases hv : value t with
    | some v =>
      rw [remove_by_shortest_prefix_value_some hv]
      rw [pruned_eq] at hp
      simpa using hp
    | none => rw [remove_by_shortest_prefix_none_nil hv]; exact hp
  | cons k rest ih =>
    cases hv : value t with
    | some v =>
      rw [remove_by_shortest_prefix_value_some hv]
      rw [pruned_eq] at hp
      simpa using hp
    | none =>
      cases hg : getA k (subtrees t) with
      | none => rw [remove_by_shortest_prefix_miss rest hv hg]; exact hp
      | some sub =>
        rw [pruned_eq] at hp
        have hsub := prunedChildren_getA hp hg
        simp at hsub
        rcases hr : remove_by_shortest_prefix sub rest with ⟨fst, snd, rem⟩
        have hpsnd : pruned snd = true := by
          have := ih hsub.2
          rw [hr] at this
          exact this
        cases fst with
        | none =>
          rw [remove_by_shortest_prefix_step_none hv hg hr]
          rw [pruned_eq]
          exact hp
        | some v =>
          rw [remove_by_shortest_prefix_step_some hv hg hr]
          cases hc : ((value snd).isNone && (subtrees snd).isEmpty) with
          | true => simp [hc, prunedChildren_eraseA _ hp]
          | false =>
            simp only [hc, Bool.false_eq_true, if_false]
            rw [pruned_node]
            refine prunedChildren_insertA _ hp ?_
            have hc2 : ¬(value snd = none ∧ subtrees snd = []) := by
              rw [← dead_iff snd]
              simp [hc]
            simp only [Bool.and_eq_true]
            refine ⟨?_, hpsnd⟩
            by_cases hv2 : value snd = none
            · have hne : subtrees snd ≠ [] := fun hh => hc2 ⟨hv2, hh⟩
              simp [List.isEmpty_iff, hne]
            · simp [Option.isSome_iff_ne_none, hv2]

/-- On success, `get_by_shortest_prefix` has consumed exactly a matched prefix
of the cursor: the input splits as that prefix plus the returned remainder,
and running the lookup on the prefix alone finds the same value with nothing
left unconsumed. -/
theorem get_by_shortest_prefix_consume {t : PrefixTree K V} {s : List K} {v : V}
    (h : ( get_by_shortest_prefix t s).1 = some v) :
    ∃ p, s = p ++ ( get_by_shortest_prefix t s).2 ∧
      get_by_shortest_prefix t p = (some v, []) := by
  induction s generalizing t with
  | nil =>
    cases hv : value t with
    | some w =>
      rw [get_by_shortest_prefix_value_some hv] at h ⊢
      simp at h
      subst h
      exact ⟨[], by simp, get_by_shortest_prefix_value_some hv []⟩
    | none =>
      rw [get_by_shortest_prefix_none_nil hv] at h
      simp at h
  | cons k rest ih =>
    cases hv : value t with
    | some w =>
      rw [get_by_shortest_prefix_value_some hv] at h ⊢
      simp at h
      subst h
      exact ⟨[], by simp, get_by_shortest_prefix_value_some hv []⟩
    | none =>
      cases hg : getA k (subtrees t) with
      | none =>
        rw [get_by_shortest_prefix_miss rest hv hg] at h
        simp at h
      | some sub =>
        rw [get_by_shortest_prefix_step rest hv hg] at h ⊢
        obtain ⟨p, hsplit, hp⟩ := ih h
        refine ⟨k :: p, by simpa using hsplit, ?_⟩
        rw [get_by_shortest_prefix_step p hv hg]
        exact hp

/-- On success, `remove_by_shortest_prefix` has consumed exactly a matched
prefix of the cursor: the input splits as that prefix plus the returned
remainder, and removal on the prefix alone takes the same value with nothing
left unconsumed. -/
theorem remove_by_shortest_prefix_consume {t : PrefixTree K V} {s : List K} {v : V}
    (h : ( remove_by_shortest_prefix t s).1 = some v) :
    ∃ p, s = p ++ ( remove_by_shortest_prefix t s).2.2 ∧
      ( remove_by_shortest_prefix t p).2.2 = [] ∧
      ( remove_by_shortest_prefix t p).1 = some v := by
  induction s generalizing t with
  | nil =>
    cases hv : value t with
    | some w =>
      rw [remove_by_shortest_prefix_value_some hv] at h ⊢
      simp at h
      subst h
      refine ⟨[], by simp, ?_, ?_⟩ <;>
        rw [remove_by_shortest_prefix_value_some hv]
    | none =>
      rw [remove_by_shortest_prefix_none_nil hv] at h
      simp at h
  | cons k rest ih =>
    cases hv : value t with
    | some w =>
      rw [remove_by_shortest_prefix_value_some hv] at h ⊢
      simp at h
      subst h
      refine ⟨[], by simp, ?_, ?_⟩ <;>
        rw [remove_by_shortest_prefix_value_some hv]
    | none =>
      cases hg : getA k (subtrees t) with
      | none =>
        rw [remove_by_shortest_prefix_miss rest hv hg] at h
        simp at h
      | some sub =>
        rcases hr : remove_by_shortest_prefix sub rest with ⟨fst, snd, rem⟩
        cases fst with
        | none =>
          rw [remove_by_shortest_prefix_step_none hv hg hr] at h
          simp at h
        | some w =>
          rw [remove_by_shortest_prefix_step_some hv hg hr] at h ⊢
          have hvw : w = v := by
            cases hc : ((value snd).isNone && (subtrees snd).isEmpty) <;>
              simp [hc] at h <;> exact h
          subst hvw
          have hfst : ( remove_by_shortest_prefix sub rest).1 = some w := by
            rw [hr]
          obtain ⟨p, hsplit, hpnil, hpfst⟩ := ih hfst
          rw [hr] at hsplit
          rcases hq : remove_by_shortest_prefix sub p with ⟨fst2, snd2, rem2⟩
          rw [hq] at hpnil hpfst
          simp at hpnil hpfst
          subst hpnil
          subst hpfst
          have hstep := remove_by_shortest_prefix_step_some hv hg hq
          refine ⟨k :: p, ?_, ?_, ?_⟩
          · cases hc : ((value snd).isNone && (subtrees snd).isEmpty) <;>
              simpa [hc] using hsplit
          · rw [hstep]
            cases hc : ((value snd2).isNone && (subtrees snd2).isEmpty) <;> simp [hc]
          · rw [hstep]
            cases hc : ((value snd2).isNone && (subtrees snd2).isEmpty) <;> simp [hc]

/-- On a pruned tree, a failed exact removal leaves the tree unchanged. -/
theorem remove_exact_match_none_id {t : PrefixTree K V} (hp : pruned t = true)
    (s : List K) (h : (remove_exact_match t s).1 = none) :
    (remove_exact_match t s).2 = t := by
  rw [remove_exact_match] at h ⊢
  cases ha : removeExactAux t s with
  | none => simp
  | some p =>
    obtain ⟨res, t2⟩ := p
    rw [ha] at h
    simp at h
    rw [h] at ha
    exact removeExactAux_id hp ha

/-! ### The mutable lookups agree with the immutable ones -/

theorem get_exact_match_mut_fst (t : PrefixTree K V) (s : List K) :
    (get_exact_match_mut t s).1 = get_exact_match t s := by
  induction s generalizing t with
  | nil => simp [get_exact_match_mut, get_exact_match]
  | cons k rest ih =>
    simp only [get_exact_match_mut, get_exact_match]
    cases hg : getA k (subtrees t) <;> simp [hg, ih]

theorem get_exact_match_mut_snd (t : PrefixTree K V) (s : List K) :
    (get_exact_match_mut t s).2 = t := by
  induction s generalizing t with
  | nil => simp [get_exact_match_mut]
  | cons k rest ih =>
    simp only [get_exact_match_mut]
    cases hg : getA k (subtrees t) with
    | none => simp
    | some sub => simp [ih, insertA_getA_self hg, node_eta]

theorem get_by_shortest_prefix_mut_value_some {t : PrefixTree K V} {v : V}
    (h : value t = some v) (s : List K) :
    get_by_shortest_prefix_mut t s = (some v, t, s) := by
  rw [get_by_shortest_prefix_mut.eq_def]
  cases s <;> simp [h]

theorem get_by_shortest_prefix_mut_none_nil {t : PrefixTree K V} (hv : value t = none) :
    get_by_shortest_prefix_mut t [] = (none, t, []) := by
  rw [get_by_shortest_prefix_mut.eq_def]
  simp [hv]

theorem get_by_shortest_prefix_mut_miss {t : PrefixTree K V} {k : K} (rest : List K)
    (hv : value t = none) (hg : getA k (subtrees t) = none) :
    get_by_shortest_prefix_mut t (k :: rest) = (none, t, rest) := by
  rw [get_by_shortest_prefix_mut.eq_def]
  simp [hv, hg]

theorem get_by_shortest_prefix_mut_step {t sub : PrefixTree K V} {k : K} (rest : List K)
    (hv : value t = none) (hg : getA k (subtrees t) = some sub) :
    get_by_shortest_prefix_mut t (k :: rest) =
      ((get_by_shortest_prefix_mut sub rest).1,
        .node (value t) (insertA k (get_by_shortest_prefix_mut sub rest).2.1 (subtrees t)),
        (get_by_shortest_prefix_mut sub rest).2.2) := by
  rw [get_by_shortest_prefix_mut.eq_def]
  simp [hv, hg]

/-- The mutable shortest-prefix lookup returns the same value and remainder as
the immutable one, and hands the tree back unmodified. -/
theorem get_by_shortest_prefix_mut_eq (t : PrefixTree K V) (s : List K) :
    get_by_shortest_prefix_mut t s =
      (( get_by_shortest_prefix t s).1, t, ( get_by_shortest_prefix t s).2) := by
  induction s generalizing t with
  | nil =>
    cases hv : value t with
    | some v =>
      rw [get_by_shortest_prefix_mut_value_some hv, get_by_shortest_prefix_value_some hv]
    | none =>
      rw [get_by_shortest_prefix_mut_none_nil hv, get_by_shortest_prefix_none_nil hv]
  | cons k rest ih =>
    cases hv : value t with
    | some v =>
      rw [get_by_shortest_prefix_mut_value_some hv, get_by_shortest_prefix_value_some hv]
    | none =>
      cases hg : getA k (subtrees t) with
      | none =>
        rw [get_by_shortest_prefix_mut_miss rest hv hg,
          get_by_shortest_prefix_miss rest hv hg]
      | some sub =>
        rw [get_by_shortest_prefix_mut_step rest hv hg,
          get_by_shortest_prefix_step rest hv hg, ih]
        simp [insertA_getA_self hg, node_eta]

/-! ### Frame properties: operations at one key do not disturb another -/

/-- Insertion at `s` leaves the exact lookup of any other key unchanged. -/
theorem get_exact_match_insert_ne (t : PrefixTree K V) (s : List K) (v : V) :
    ∀ q, s ≠ q → get_exact_match (insert t s v).2 q = get_exact_match t q := by
  induction s generalizing t with
  | nil =>
    intro q hne
    cases q with
    | nil => exact absurd rfl hne
    | cons k2 qr => simp [insert, get_exact_match]
  | cons k rest ih =>
    intro q hne
    cases q with
    | nil => simp [insert, get_exact_match]
    | cons k2 qr =>
      simp only [insert, get_exact_match]
      by_cases hk : k2 = k
      · subst hk
        have hqr : rest ≠ qr := fun hh => hne (by rw [hh])
        rw [subtrees_node, getA_insertA_self]
        cases hg : getA k2 (subtrees t) with
        | none =>
          simp only [hg]
          rw [ih new qr hqr]
          exact get_exact_match_new qr
        | some sub =>
          simp only [hg]
          exact ih sub qr hqr
      · rw [subtrees_node, getA_insertA_ne hk]

/-- A dead node answers no exact lookup. -/
theorem dead_get_none {c : PrefixTree K V} (hv : value c = none)
    (hs : subtrees c = []) (q : List K) : get_exact_match c q = none := by
  cases q <;> simp [get_exact_match, hv, hs, getA]

/-- The descent-and-prune walk of exact removal leaves the exact lookup of
any other key unchanged. -/
theorem removeExactAux_frame {t : PrefixTree K V} {s : List K} {res : Option V}
    {t2 : PrefixTree K V} (hw : wfTree t = true)
    (h : removeExactAux t s = some (res, t2)) :
    ∀ q, s ≠ q → get_exact_match t2 q = get_exact_match t q := by
  induction s generalizing t res t2 with
  | nil =>
    intro q hne
    simp [removeExactAux] at h
    cases q with
    | nil => exact absurd rfl hne
    | cons k2 qr => rw [← h.2]; simp [get_exact_match]
  | cons k rest ih =>
    intro q hne
    rw [wfTree_eq] at hw
    simp at hw
    simp only [removeExactAux] at h
    cases hg : getA k (subtrees t) with
    | none => simp [hg] at h
    | some sub =>
      simp only [hg] at h
      cases ha : removeExactAux sub rest with
      | none => simp [ha] at h
      | some p =>
        obtain ⟨res2, sub2⟩ := p
        have hwsub := wfChildren_getA hw.2 hg
        simp only [ha] at h
        cases q with
        | nil =>
          cases hc : ((value sub2).isNone && (subtrees sub2).isEmpty) <;>
            simp [hc] at h <;> simp [← h.2, get_exact_match]
        | cons k2 qr =>
          by_cases hk : k2 = k
          · subst hk
            have hqr : rest ≠ qr := fun hh => hne (by rw [hh])
            have hih := ih hwsub ha qr hqr
            cases hc : ((value sub2).isNone && (subtrees sub2).isEmpty) with
            | true =>
              simp [hc] at h
              rw [dead_iff] at hc
              have hdead := dead_get_none hc.1 hc.2 qr
              rw [← h.2]
              simp [get_exact_match, getA_eraseA_self hw.1, hg, ← hih, hdead]
            | false =>
              simp [hc] at h
              rw [← h.2]
              simp [get_exact_match, getA_insertA_self, hg, hih]
          · cases hc : ((value sub2).isNone && (subtrees sub2).isEmpty) <;>
              simp [hc] at h <;> rw [← h.2] <;>
              simp [get_exact_match, getA_eraseA_ne hk, getA_insertA_ne hk]

/-- Exact removal at `s` leaves the exact lookup of any other key unchanged. -/
theorem remove_exact_match_frame {t : PrefixTree K V} (hw : wfTree t = true)
    (s : List K) : ∀ q, s ≠ q →
      get_exact_match (remove_exact_match t s).2 q = get_exact_match t q := by
  intro q hne
  rw [remove_exact_match]
  cases ha : removeExactAux t s with
  | none => simp
  | some p =>
    obtain ⟨res, t2⟩ := p
    simpa using removeExactAux_frame hw ha q hne

/-! ### Trees reachable by the public mutating operations -/

/-- The trees obtainable from `PrefixTree::new` by any finite sequence of
`insert`, `remove_exact_match` and `remove_by_shortest_prefix` calls. -/
inductive Reachable : PrefixTree K V → Prop where
  | empty : Reachable new
  | ins (t : PrefixTree K V) (s : List K) (v : V) :
      Reachable t → Reachable (insert t s v).2
  | rem (t : PrefixTree K V) (s : List K) :
      Reachable t → Reachable (remove_exact_match t s).2
  | rsp (t : PrefixTree K V) (s : List K) :
      Reachable t → Reachable ( remove_by_shortest_prefix t s).2.1

/-- Every reachable tree satisfies the no-dead-leaves invariant. -/
theorem pruned_of_reachable {t : PrefixTree K V} (h : Reachable t) :
    pruned t = true := by
  induction h with
  | empty => exact pruned_new
  | ins t s v _ ih => exact pruned_insert ih s v
  | rem t s _ ih => exact pruned_remove_exact_match ih s
  | rsp t s _ ih => exact pruned_remove_by_shortest_prefix ih s

@[simp] theorem wfTree_new : wfTree (new : PrefixTree K V) = true := by
  rw [new, wfTree_node, keysNodup]
  simp

/-! ### The claims -/

/-- C1: every tree reachable from the empty tree by `insert`,
`remove_exact_match` and `remove_by_shortest_prefix` calls has no non-root
node with both an absent value and an empty subtree map, and each of the
three mutating operations preserves this invariant. -/
theorem c1_no_dead_leaves (t : PrefixTree K V) (h : Reachable t) :
    pruned t = true ∧
      ∀ (s : List K) (v : V),
        pruned (insert t s v).2 = true ∧
        pruned (remove_exact_match t s).2 = true ∧
        pruned ( remove_by_shortest_prefix t s).2.1 = true := by
  have hp := pruned_of_reachable h
  exact ⟨hp, fun s v => ⟨pruned_insert hp s v, pruned_remove_exact_match hp s,
    pruned_remove_by_shortest_prefix hp s⟩⟩

theorem c1_no_dead_leaves_witness :
    pruned (insert (new : PrefixTree Char Nat) ['a', 'b'] 3).2 = true ∧
    pruned (remove_exact_match (insert (new : PrefixTree Char Nat) ['a', 'b'] 3).2
      ['a', 'b']).2 = true := by
  have h := c1_no_dead_leaves (insert (new : PrefixTree Char Nat) ['a', 'b'] 3).2
    (Reachable.ins _ _ _ Reachable.empty)
  exact ⟨h.1, (h.2 ['a', 'b'] 0).2.1⟩

/-- C2: on a tree satisfying the no-dead-leaves invariant, whenever
`remove_exact_match` or `remove_by_shortest_prefix` returns `None`, the tree
after the call is structurally equal to the tree before it. -/
theorem c2_failed_removal_no_op (t : PrefixTree K V) (s : List K)
    (h : pruned t = true) :
    ((remove_exact_match t s).1 = none → (remove_exact_match t s).2 = t) ∧
    (( remove_by_shortest_prefix t s).1 = none →
      ( remove_by_shortest_prefix t s).2.1 = t) :=
  ⟨remove_exact_match_none_id h s, remove_by_shortest_prefix_none_id t s⟩

theorem c2_failed_removal_no_op_witness :
    (remove_exact_match (new : PrefixTree Char Nat) ['a']).2 = new ∧
    ( remove_by_shortest_prefix (new : PrefixTree Char Nat) ['a']).2.1 = new := by
  have h := c2_failed_removal_no_op (new : PrefixTree Char Nat) ['a'] pruned_new
  exact ⟨h.1 rfl, h.2 rfl⟩

/-- C3: pruning after a deep removal deletes exactly the chain of dead nodes:
removing `"abc"` from a tree holding only `"abc" ↦ 3` restores the empty
tree, while with `"a" ↦ 1` also present only the `'b'` and `'c'` nodes
disappear and the `'a'` node survives holding `Some 1`. -/
theorem c3_pruning_exact :
    remove_exact_match (insert (new : PrefixTree Char Nat) ['a', 'b', 'c'] 3).2
      ['a', 'b', 'c'] = (some 3, new) ∧
    remove_exact_match
      (insert (insert (new : PrefixTree Char Nat) ['a', 'b', 'c'] 3).2 ['a'] 1).2
      ['a', 'b', 'c'] = (some 3, .node none [('a', .node (some 1) [])]) :=
  ⟨rfl, rfl⟩

/-- C4: `get_by_shortest_prefix` checks the current node before consuming the
next element: with a value at the current node every query returns it with
zero elements consumed, and on the tree `{"a" ↦ 1, "ab" ↦ 2}` the query
`"abc"` returns `1`, the exact lookup of `"ab"` returns `2`, and the query
`"b"` fails. -/
theorem c4_shortest_prefix_first (t : PrefixTree K V) (v : V) (s : List K)
    (h : value t = some v) :
    get_by_shortest_prefix t s = (some v, s) ∧
    (( get_by_shortest_prefix
        (insert (insert (new : PrefixTree Char Nat) ['a'] 1).2 ['a', 'b'] 2).2
        ['a', 'b', 'c']).1 = some 1 ∧
      get_exact_match
        (insert (insert (new : PrefixTree Char Nat) ['a'] 1).2 ['a', 'b'] 2).2
        ['a', 'b'] = some 2 ∧
      ( get_by_shortest_prefix
        (insert (insert (new : PrefixTree Char Nat) ['a'] 1).2 ['a', 'b'] 2).2
        ['b']).1 = none) :=
  ⟨get_by_shortest_prefix_value_some h s, rfl, rfl, rfl⟩

theorem c4_shortest_prefix_first_witness :
    get_by_shortest_prefix (PrefixTree.node (some 5)
      ([] : List (Char × PrefixTree Char Nat))) ['x'] = (some 5, ['x']) :=
  (c4_shortest_prefix_first (PrefixTree.node (some 5) []) 5 ['x'] rfl).1

/-- C5: for every tree, sequence and value, `insert` followed by
`get_exact_match` of the same sequence returns the inserted value. -/
theorem c5_round_trip (t : PrefixTree K V) (s : List K) (v : V) :
    get_exact_match (insert t s v).2 s = some v :=
  get_exact_match_insert t s v

/-- C6: `insert s v` then `remove_exact_match s` returns `Some v` and a
subsequent `get_exact_match s` returns `None`; moreover `remove_exact_match`
always returns exactly the value extracted from the target node, independent
of any pruning. -/
theorem c6_removal_round_trip (t : PrefixTree K V) (s : List K) (v : V)
    (h : wfTree t = true) :
    (remove_exact_match (insert t s v).2 s).1 = some v ∧
    get_exact_match (remove_exact_match (insert t s v).2 s).2 s = none ∧
    ∀ (u : PrefixTree K V) (q : List K),
      (remove_exact_match u q).1 = get_exact_match u q := by
  refine ⟨?_, ?_, fun u q => remove_exact_match_fst u q⟩
  · rw [remove_exact_match_fst]
    exact get_exact_match_insert t s v
  · rw [remove_exact_match]
    cases ha : removeExactAux (insert t s v).2 s with
    | none =>
      have := removeExactAux_none_get ha
      rw [get_exact_match_insert] at this
      simp at this
    | some p =>
      obtain ⟨res, t2⟩ := p
      simpa using removeExactAux_get_none (wfTree_insert h s v) ha

theorem c6_removal_round_trip_witness :
    (remove_exact_match (insert (new : PrefixTree Char Nat) ['a'] 7).2 ['a']).1 = some 7 ∧
    get_exact_match
      (remove_exact_match (insert (new : PrefixTree Char Nat) ['a'] 7).2 ['a']).2
      ['a'] = none := by
  have h := c6_removal_round_trip (new : PrefixTree Char Nat) ['a'] 7 wfTree_new
  exact ⟨h.1, h.2.1⟩

/-- C7: re-inserting the same sequence returns the old value, makes the exact
lookup see the new value, and creates no node (the node count is unchanged). -/
theorem c7_overwrite (t : PrefixTree K V) (s : List K) (v1 v2 : V) :
    (insert (insert t s v1).2 s v2).1 = some v1 ∧
    get_exact_match (insert (insert t s v1).2 s v2).2 s = some v2 ∧
    size (insert (insert t s v1).2 s v2).2 = size (insert t s v1).2 := by
  refine ⟨?_, get_exact_match_insert _ s v2,
    size_insert_hasNode (hasNode_insert t s v1) v2⟩
  rw [insert_fst]
  exact get_exact_match_insert t s v1

/-- C8: a successful shortest-prefix lookup or removal consumes exactly the
matched prefix of the cursor and leaves the rest unconsumed; a value at the
root makes both operations succeed with zero elements consumed — the lookup
returns it with the cursor intact, and removal returns and clears the root's
value while pruning nothing. -/
theorem c8_partial_consumption (t : PrefixTree K V) (s : List K) (v : V) :
    (( get_by_shortest_prefix t s).1 = some v →
      ∃ p, s = p ++ ( get_by_shortest_prefix t s).2 ∧
        get_by_shortest_prefix t p = (some v, [])) ∧
    (( remove_by_shortest_prefix t s).1 = some v →
      ∃ p, s = p ++ ( remove_by_shortest_prefix t s).2.2 ∧
        ( remove_by_shortest_prefix t p).2.2 = [] ∧
        ( remove_by_shortest_prefix t p).1 = some v) ∧
    (value t = some v →
      get_by_shortest_prefix t s = (some v, s)) ∧
    (value t = some v →
      remove_by_shortest_prefix t s = (some v, .node none (subtrees t), s)) :=
  ⟨fun h => get_by_shortest_prefix_consume h,
   fun h => remove_by_shortest_prefix_consume h,
   fun h => get_by_shortest_prefix_value_some h s,
   fun h => remove_by_shortest_prefix_value_some h s⟩

theorem c8_partial_consumption_witness :
    (∃ p, ['z'] = p ++ ( get_by_shortest_prefix (PrefixTree.node (some 4)
        ([] : List (Char × PrefixTree Char Nat))) ['z']).2 ∧
      get_by_shortest_prefix (PrefixTree.node (some 4)
        ([] : List (Char × PrefixTree Char Nat))) p = (some 4, [])) ∧
    get_by_shortest_prefix (PrefixTree.node (some 4)
      ([] : List (Char × PrefixTree Char Nat))) ['z'] = (some 4, ['z']) ∧
    remove_by_shortest_prefix (PrefixTree.node (some 4)
      ([] : List (Char × PrefixTree Char Nat))) ['z'] =
      (some 4, .node none [], ['z']) := by
  have h := c8_partial_consumption (PrefixTree.node (some 4)
    ([] : List (Char × PrefixTree Char Nat))) ['z'] 4
  exact ⟨h.1 rfl, h.2.2.1 rfl, by simpa using h.2.2.2 rfl⟩

/-- C9: the mutable and immutable lookup forms return the same value (and the
same cursor remainder) and the mutable walks hand the tree back unmodified. -/
theorem c9_mut_agreement (t : PrefixTree K V) (s : List K) :
    (get_exact_match_mut t s).1 = get_exact_match t s ∧
    (get_exact_match_mut t s).2 = t ∧
    (get_by_shortest_prefix_mut t s).1 = ( get_by_shortest_prefix t s).1 ∧
    (get_by_shortest_prefix_mut t s).2.1 = t ∧
    (get_by_shortest_prefix_mut t s).2.2 = ( get_by_shortest_prefix t s).2 := by
  refine ⟨get_exact_match_mut_fst t s, get_exact_match_mut_snd t s, ?_, ?_, ?_⟩ <;>
    rw [get_by_shortest_prefix_mut_eq]

/-- C10: insertion and exact removal at one key do not change the exact
lookup of any other key. -/
theorem c10_locality (t : PrefixTree K V) (s q : List K) (v : V)
    (hw : wfTree t = true) (hne : s ≠ q) :
    get_exact_match (insert t s v).2 q = get_exact_match t q ∧
    get_exact_match (remove_exact_match t s).2 q = get_exact_match t q :=
  ⟨get_exact_match_insert_ne t s v q hne, remove_exact_match_frame hw s q hne⟩

theorem c10_locality_witness :
    get_exact_match
      (insert (insert (new : PrefixTree Char Nat) ['b'] 9).2 ['a'] 2).2 ['b'] =
      get_exact_match (insert (new : PrefixTree Char Nat) ['b'] 9).2 ['b'] ∧
    get_exact_match
      (remove_exact_match (insert (new : PrefixTree Char Nat) ['b'] 9).2 ['a']).2 ['b'] =
      get_exact_match (insert (new : PrefixTree Char Nat) ['b'] 9).2 ['b'] :=
  c10_locality (insert (new : PrefixTree Char Nat) ['b'] 9).2 ['a'] ['b'] 2
    (wfTree_insert wfTree_new ['b'] 9) (by decide)

end Preftree
